import Mathlib

/-!
Shallow embedding of the relay-configuration core of the repository:
the `AppConfig` data model (`src/contexts/AppContext`), the
`normalizeRelayUrl` and `upsertRelay` operations of the relay selector
(`src/components/RelaySelector.tsx`), the config deserializer of
`AppProvider` (JSON parse + current/legacy Zod schema validation +
repair/migration/fallback), and the active relay URL derivation of
`NostrProvider`.  Strings are Lean `String`s; list/character work is done
on `String.data`.  JavaScript `trim` is modelled by dropping whitespace
characters from both ends; Zod's `z.string().url()` check is an external
library predicate and is kept as an explicit parameter `validUrl`.
-/

/-- Theme preference, from `src/contexts/AppContext`: `"dark" | "light" | "system"`. -/
inductive Theme where
  | dark
  | light
  | system
deriving DecidableEq, Repr

/-- Relay entry `RelayConfigItem`, from `src/contexts/AppContext`. -/
structure RelayConfigItem where
  url : String
  enabled : Bool
deriving DecidableEq, Repr

/-- Application config `AppConfig`, from `src/contexts/AppContext`. -/
structure AppConfig where
  theme : Theme
  relays : List RelayConfigItem
deriving DecidableEq, Repr

/-- JavaScript `String.prototype.trim`: drop whitespace from both ends. -/
def jsTrim (s : List Char) : List Char :=
  (((s.dropWhile Char.isWhitespace).reverse).dropWhile Char.isWhitespace).reverse

/-- JavaScript `trimmed.includes('://')`: the three-character scheme
separator occurs somewhere in the string. -/
def hasSchemeSep : List Char → Bool
  | ':' :: '/' :: '/' :: _ => true
  | _ :: rest => hasSchemeSep rest
  | [] => false

/-- The `normalizeRelayUrl` helper from `RelaySelector.tsx`: trim; keep an empty
result; keep a string that already has a scheme separator; otherwise
prefix with the secure WebSocket scheme. -/
def normalizeRelayUrl (url : String) : String :=
  let trimmed := jsTrim url.data
  if trimmed.isEmpty then String.mk trimmed
  else if hasSchemeSep trimmed then String.mk trimmed
  else String.mk ("wss://".data ++ trimmed)

/-- The `upsertRelay` operation from `RelaySelector.tsx`, as a pure state transformer on
the config (the source routes the update through `updateConfig`, which just
applies the updater to the current config). -/
def upsertRelay (current : AppConfig) (rawUrl : String) (enabled : Bool) : AppConfig :=
  let url := normalizeRelayUrl rawUrl
  if url = "" then current
  else
    let normalized := normalizeRelayUrl url
    let existing := current.relays.find? (fun r => r.url == normalized)
    let enabledCount := (current.relays.filter (fun r => r.enabled)).length
    match existing with
    | some ex =>
      if ex.enabled && !enabled && enabledCount ≤ 1 then current
      else
        { current with
          relays := current.relays.map (fun r =>
            if r.url == normalized then { r with enabled := enabled } else r) }
    | none =>
      { current with relays := current.relays ++ [{ url := normalized, enabled := true }] }

/-- The `relayUrls` derivation from `NostrProvider` (part_002): the enabled
relay URLs, or — when no relay is enabled — the first configured relay's
URL (`config.relays.slice(0, 1).map(r => r.url)`). -/
def relayUrls (config : AppConfig) : List String :=
  let enabled := (config.relays.filter (fun r => r.enabled)).map (fun r => r.url)
  if enabled.length > 0 then enabled
  else (config.relays.take 1).map (fun r => r.url)

/-- Parsed JSON values, the input space of the deserializer after
`JSON.parse` succeeds. -/
inductive Json where
  | null
  | bool (b : Bool)
  | num (n : Int)
  | str (s : String)
  | arr (items : List Json)
  | obj (fields : List (String × Json))

/-- Key lookup in a parsed JSON object. -/
def getField : List (String × Json) → String → Option Json
  | [], _ => none
  | (k, v) :: rest, key => if k = key then some v else getField rest key

/-- Zod `z.enum(['dark', 'light', 'system'])`. -/
def parseTheme : Json → Option Theme
  | .str "dark" => some .dark
  | .str "light" => some .light
  | .str "system" => some .system
  | _ => none

/-- Zod `RelayConfigItemSchema = z.object({url: z.string().url(), enabled:
z.boolean()})`; the URL-validity check is the external `validUrl`. -/
def parseRelayItem (validUrl : String → Bool) : Json → Option RelayConfigItem
  | .obj fields =>
    match getField fields "url", getField fields "enabled" with
    | some (.str u), some (.bool b) =>
      if validUrl u then some { url := u, enabled := b } else none
    | _, _ => none
  | _ => none

/-- Zod `z.array(RelayConfigItemSchema)`: every element must validate. -/
def parseRelayList (validUrl : String → Bool) : List Json → Option (List RelayConfigItem)
  | [] => some []
  | j :: rest =>
    match parseRelayItem validUrl j, parseRelayList validUrl rest with
    | some r, some rs => some (r :: rs)
    | _, _ => none

/-- Zod `AppConfigSchema = z.object({theme: ..., relays:
z.array(...).min(1)})` from `AppProvider`. -/
def parseAppConfig (validUrl : String → Bool) : Json → Option AppConfig
  | .obj fields =>
    match getField fields "theme", getField fields "relays" with
    | some t, some (.arr items) =>
      match parseTheme t, parseRelayList validUrl items with
      | some theme, some relays =>
        if 1 ≤ relays.length then some { theme := theme, relays := relays } else none
      | _, _ => none
    | _, _ => none
  | _ => none

/-- Zod `LegacyAppConfigSchema = z.object({theme: ..., relayUrl:
z.string().url()})` from `AppProvider`. -/
def parseLegacyConfig (validUrl : String → Bool) : Json → Option (Theme × String)
  | .obj fields =>
    match getField fields "theme", getField fields "relayUrl" with
    | some t, some (.str u) =>
      match parseTheme t with
      | some theme => if validUrl u then some (theme, u) else none
      | none => none
    | _, _ => none
  | _ => none

/-- The repair map `relays.map((r, i) => ({...r, enabled: i === 0}))` of the
deserializer, with the JavaScript callback index made explicit. -/
def repairRelays (i : Nat) : List RelayConfigItem → List RelayConfigItem
  | [] => []
  | r :: rest => { r with enabled := i == 0 } :: repairRelays (i + 1) rest

/-- The `deserialize` closure of `AppProvider`: `none` models a
`JSON.parse` throw; otherwise try the current schema (repairing an
all-disabled relay list), then the legacy schema (migrating to a
one-relay list), then fall back to the supplied default. -/
def deserializeAppConfig (validUrl : String → Bool) (defaultConfig : AppConfig) :
    Option Json → AppConfig
  | none => defaultConfig
  | some parsed =>
    match parseAppConfig validUrl parsed with
    | some data =>
      if data.relays.any (fun r => r.enabled) then data
      else { data with relays := repairRelays 0 data.relays }
    | none =>
      match parseLegacyConfig validUrl parsed with
      | some (theme, relayUrl) =>
        { theme := theme, relays := [{ url := relayUrl, enabled := true }] }
      | none => defaultConfig

/-! ### Properties of trimming and normalization -/

theorem jsTrim_eq_rdropWhile (s : List Char) :
    jsTrim s = List.rdropWhile Char.isWhitespace (s.dropWhile Char.isWhitespace) := rfl

theorem jsTrim_dropWhile (s : List Char) :
    (jsTrim s).dropWhile Char.isWhitespace = jsTrim s := by
  rw [List.dropWhile_eq_self_iff]
  intro hl
  have hpre : jsTrim s <+: s.dropWhile Char.isWhitespace := by
    rw [jsTrim_eq_rdropWhile]
    exact List.rdropWhile_prefix _ _
  have hlt : 0 < (s.dropWhile Char.isWhitespace).length := lt_of_lt_of_le hl hpre.length_le
  have hget := List.IsPrefix.getElem hpre hl
  have hnot := List.dropWhile_get_zero_not (p := Char.isWhitespace) s hlt
  simp only [List.get_eq_getElem] at hnot ⊢
  rw [hget]
  exact hnot

theorem jsTrim_rdropWhile (s : List Char) :
    List.rdropWhile Char.isWhitespace (jsTrim s) = jsTrim s := by
  rw [jsTrim_eq_rdropWhile]
  exact List.rdropWhile_idempotent _ _

theorem jsTrim_idem (s : List Char) : jsTrim (jsTrim s) = jsTrim s := by
  calc jsTrim (jsTrim s)
      = List.rdropWhile Char.isWhitespace ((jsTrim s).dropWhile Char.isWhitespace) := rfl
    _ = List.rdropWhile Char.isWhitespace (jsTrim s) := by rw [jsTrim_dropWhile]
    _ = jsTrim s := jsTrim_rdropWhile s

theorem rdropWhile_append_self (p : Char → Bool) (l₁ l₂ : List Char)
    (h2 : List.rdropWhile p l₂ = l₂) (hne : l₂ ≠ []) :
    List.rdropWhile p (l₁ ++ l₂) = l₁ ++ l₂ := by
  rcases List.eq_nil_or_concat l₂ with rfl | ⟨t, c, rfl⟩
  · exact absurd rfl hne
  · rw [List.concat_eq_append] at h2 ⊢
    have hpc : p c = false := by
      by_contra hc
      rw [Bool.not_eq_false] at hc
      rw [List.rdropWhile_concat_pos _ _ c hc] at h2
      have hp2 := List.rdropWhile_prefix p t
      have := hp2.length_le
      rw [h2] at this
      simp at this
    rw [← List.append_assoc]
    exact List.rdropWhile_concat_neg _ _ c (by simp [hpc])

theorem jsTrim_wss_append (s : List Char) (hne : jsTrim s ≠ []) :
    jsTrim ("wss://".data ++ jsTrim s) = "wss://".data ++ jsTrim s := by
  have hfront : ("wss://".data ++ jsTrim s).dropWhile Char.isWhitespace
      = "wss://".data ++ jsTrim s := by
    show List.dropWhile Char.isWhitespace ('w' :: ("ss://".data ++ jsTrim s))
        = 'w' :: ("ss://".data ++ jsTrim s)
    rw [List.dropWhile_cons]
    simp
  show List.rdropWhile Char.isWhitespace
      (("wss://".data ++ jsTrim s).dropWhile Char.isWhitespace) = "wss://".data ++ jsTrim s
  rw [hfront]
  exact rdropWhile_append_self _ _ _ (jsTrim_rdropWhile s) hne

theorem hasSchemeSep_wss (t : List Char) : hasSchemeSep ("wss://".data ++ t) = true := rfl

theorem mk_data (l : List Char) : (String.mk l).data = l := rfl

theorem jsTrim_nil : jsTrim [] = [] := rfl

theorem normalizeRelayUrl_idem (s : String) :
    normalizeRelayUrl (normalizeRelayUrl s) = normalizeRelayUrl s := by
  by_cases h1 : (jsTrim s.data).isEmpty = true
  · have ht : jsTrim s.data = [] := by simpa using h1
    simp [normalizeRelayUrl, ht, jsTrim_nil]
  · by_cases h2 : hasSchemeSep (jsTrim s.data) = true
    · simp only [normalizeRelayUrl, h1, h2, if_true, if_false, Bool.false_eq_true]
      simp [mk_data, jsTrim_idem, h1, h2]
    · have hne : jsTrim s.data ≠ [] := by
        intro hc
        exact h1 (by simp [hc])
      simp only [normalizeRelayUrl, h1, h2, if_true, if_false, Bool.false_eq_true]
      have hw := jsTrim_wss_append s.data hne
      have hs := hasSchemeSep_wss (jsTrim s.data)
      have hd : ("wss://".data : List Char) = ['w', 's', 's', ':', '/', '/'] := rfl
      rw [hd] at hw hs
      simp only [List.cons_append, List.nil_append] at hw hs
      simp [mk_data, hw, hs, hne]

/-- Claim C7: URL normalization is idempotent — `normalize(normalize(x)) =
normalize(x)` for every string — and `normalize("relay.example.com") =
"wss://relay.example.com"`, `normalize("ws://x") = "ws://x"` (whitespace is
trimmed and `wss://` is prefixed exactly when the trimmed string contains
no `://`). -/
theorem normalizeRelayUrl_spec :
    (∀ s : String, normalizeRelayUrl (normalizeRelayUrl s) = normalizeRelayUrl s) ∧
    normalizeRelayUrl "relay.example.com" = "wss://relay.example.com" ∧
    normalizeRelayUrl "ws://x" = "ws://x" :=
  ⟨normalizeRelayUrl_idem, by decide, by decide⟩

/-! ### Properties of upsertRelay -/

theorem upsertRelay_eq (current : AppConfig) (rawUrl : String) (enabled : Bool) :
    upsertRelay current rawUrl enabled =
      if normalizeRelayUrl rawUrl = "" then current
      else
        match current.relays.find? (fun r => r.url == normalizeRelayUrl rawUrl) with
        | some ex =>
          if ex.enabled && !enabled
              && (current.relays.filter (fun r => r.enabled)).length ≤ 1 then current
          else
            { current with relays := current.relays.map (fun r =>
                if r.url == normalizeRelayUrl rawUrl then { r with enabled := enabled } else r) }
        | none =>
          { current with
            relays := current.relays ++ [{ url := normalizeRelayUrl rawUrl, enabled := true }] } := by
  simp only [upsertRelay, normalizeRelayUrl_idem]

theorem url_setEnabled (r : RelayConfigItem) (n : String) (flag : Bool) :
    (if r.url == n then { r with enabled := flag } else r).url = r.url := by
  by_cases h : (r.url == n) = true
  · rw [if_pos h]
  · rw [if_neg h]

theorem map_url_setEnabled (l : List RelayConfigItem) (n : String) (flag : Bool) :
    (l.map (fun r => if r.url == n then { r with enabled := flag } else r)).map
        RelayConfigItem.url = l.map RelayConfigItem.url := by
  rw [List.map_map]
  apply List.map_congr_left
  intro a _
  exact url_setEnabled a n flag

theorem upsertRelay_any_enabled (c : AppConfig)
    (hnd : (c.relays.map RelayConfigItem.url).Nodup)
    (rawUrl : String) (flag : Bool)
    (hen : c.relays.any (fun r => r.enabled) = true) :
    (upsertRelay c rawUrl flag).relays.any (fun r => r.enabled) = true := by
  rw [upsertRelay_eq]
  by_cases hu : normalizeRelayUrl rawUrl = ""
  · simp [hu, hen]
  · rw [if_neg hu]
    cases hf : c.relays.find? (fun r => r.url == normalizeRelayUrl rawUrl) with
    | none => simp
    | some ex =>
      have hex_url : ex.url = normalizeRelayUrl rawUrl := by
        simpa using List.find?_some hf
      have hex_mem : ex ∈ c.relays := List.mem_of_find?_eq_some hf
      by_cases hguard :
          (ex.enabled && !flag
            && decide ((c.relays.filter (fun r => r.enabled)).length ≤ 1)) = true
      · simp only [hguard, if_true]
        exact hen
      · simp only [hguard, Bool.false_eq_true, if_false]
        cases flag with
        | true =>
          rw [List.any_eq_true]
          refine ⟨{ ex with enabled := true }, ?_, rfl⟩
          have : ({ ex with enabled := true } : RelayConfigItem)
              = (fun r => if r.url == normalizeRelayUrl rawUrl
                  then { r with enabled := true } else r) ex := by
            simp [hex_url]
          rw [this]
          exact List.mem_map_of_mem _ hex_mem
        | false =>
          simp only [Bool.not_false, Bool.and_true] at hguard
          rw [Bool.and_eq_true, not_and_or] at hguard
          rcases hguard with hexe | hcnt
          · -- the found entry is disabled: the enabled entry elsewhere is untouched
            rw [Bool.not_eq_true] at hexe
            obtain ⟨r0, hr0mem, hr0en⟩ := List.any_eq_true.mp hen
            have hr0url : (r0.url == normalizeRelayUrl rawUrl) = false := by
              rw [Bool.eq_false_iff]
              intro hc
              have : r0 = ex := List.inj_on_of_nodup_map hnd hr0mem hex_mem
                (by rw [hex_url]; exact beq_iff_eq.mp hc)
              rw [this, hexe] at hr0en
              exact Bool.false_ne_true hr0en
            rw [List.any_eq_true]
            refine ⟨r0, ?_, hr0en⟩
            have : r0 = (fun r => if r.url == normalizeRelayUrl rawUrl
                then { r with enabled := false } else r) r0 := by
              simp [hr0url]
            rw [this]  -- hmm need to rewrite only the membership element
            exact List.mem_map_of_mem _ hr0mem
          · -- at least two enabled relays: one of them is untouched
            rw [decide_eq_true_eq, Nat.not_le] at hcnt
            have hcnt2 : 2 ≤ (c.relays.filter (fun r => r.enabled)).length := hcnt
            have hnodup := (hnd.of_map RelayConfigItem.url).filter (fun r => r.enabled)
            obtain ⟨a, b, t, hft⟩ :
                ∃ a b t, c.relays.filter (fun r => r.enabled) = a :: b :: t := by
              cases hfl : c.relays.filter (fun r => r.enabled) with
              | nil => rw [hfl] at hcnt2; simp at hcnt2
              | cons a rest =>
                cases rest with
                | nil => rw [hfl] at hcnt2; simp at hcnt2
                | cons b t => exact ⟨a, b, t, rfl⟩
            have hamem : a ∈ c.relays.filter (fun r => r.enabled) := by
              rw [hft]; exact List.mem_cons_self a _
            have hbmem : b ∈ c.relays.filter (fun r => r.enabled) := by
              rw [hft]; exact List.mem_cons_of_mem a (List.mem_cons_self b t)
            have hab : a ≠ b := by
              rw [hft] at hnodup
              intro hc
              rw [List.nodup_cons] at hnodup
              exact hnodup.1 (hc ▸ List.mem_cons_self b t)
            have haen : a.enabled = true := by simpa using (List.mem_filter.mp hamem).2
            have hben : b.enabled = true := by simpa using (List.mem_filter.mp hbmem).2
            have hamem2 : a ∈ c.relays := (List.mem_filter.mp hamem).1
            have hbmem2 : b ∈ c.relays := (List.mem_filter.mp hbmem).1
            have hone : (a.url == normalizeRelayUrl rawUrl) = false
                ∨ (b.url == normalizeRelayUrl rawUrl) = false := by
              by_contra hc
              rw [not_or, Bool.not_eq_false, Bool.not_eq_false] at hc
              have ha := List.inj_on_of_nodup_map hnd hamem2 hbmem2
                (by rw [beq_iff_eq.mp hc.1, beq_iff_eq.mp hc.2])
              exact hab ha
            rw [List.any_eq_true]
            rcases hone with h1 | h1
            · refine ⟨a, ?_, haen⟩
              have : a = (fun r => if r.url == normalizeRelayUrl rawUrl
                  then { r with enabled := false } else r) a := by simp [h1]
              rw [this]
              exact List.mem_map_of_mem _ hamem2
            · refine ⟨b, ?_, hben⟩
              have : b = (fun r => if r.url == normalizeRelayUrl rawUrl
                  then { r with enabled := false } else r) b := by simp [h1]
              rw [this]
              exact List.mem_map_of_mem _ hbmem2

theorem upsertRelay_disable_last (c : AppConfig)
    (hnd : (c.relays.map RelayConfigItem.url).Nodup)
    (r : RelayConfigItem) (rawUrl : String)
    (hfil : c.relays.filter (fun x => x.enabled) = [r])
    (hn : normalizeRelayUrl rawUrl = r.url) :
    upsertRelay c rawUrl false = c := by
  rw [upsertRelay_eq]
  by_cases hu : normalizeRelayUrl rawUrl = ""
  · rw [if_pos hu]
  · rw [if_neg hu]
    have hrfil : r ∈ c.relays.filter (fun x => x.enabled) := by
      rw [hfil]
      exact List.mem_cons_self r []
    have hrmem : r ∈ c.relays := (List.mem_filter.mp hrfil).1
    have hren : r.enabled = true := by simpa using (List.mem_filter.mp hrfil).2
    cases hf : c.relays.find? (fun x => x.url == normalizeRelayUrl rawUrl) with
    | none =>
      exfalso
      rw [List.find?_eq_none] at hf
      exact hf r hrmem (by rw [hn]; exact beq_self_eq_true r.url)
    | some ex =>
      have hex_url : ex.url = normalizeRelayUrl rawUrl := by
        simpa using List.find?_some hf
      have hex_mem : ex ∈ c.relays := List.mem_of_find?_eq_some hf
      have hexr : ex = r :=
        List.inj_on_of_nodup_map hnd hex_mem hrmem (by rw [hex_url, hn])
      have hcnt : (c.relays.filter (fun x => x.enabled)).length = 1 := by
        rw [hfil]
        rfl
      simp only [hexr, hren, hcnt]
      simp

/-- Claim C5 counterexample: in a config whose two entries share the same URL
(first disabled, second enabled — the sole enabled relay), disabling that
URL turns off both entries: the enabled count drops from one to zero and
the config changes, contradicting the claim for arbitrary configs. -/
theorem upsertRelay_duplicate_url_counterexample :
    ((AppConfig.mk .dark [⟨"wss://a", false⟩, ⟨"wss://a", true⟩]).relays.filter
      (fun r => r.enabled)).length = 1 ∧
    ((upsertRelay (AppConfig.mk .dark [⟨"wss://a", false⟩, ⟨"wss://a", true⟩])
        "wss://a" false).relays.any (fun r => r.enabled)) = false ∧
    upsertRelay (AppConfig.mk .dark [⟨"wss://a", false⟩, ⟨"wss://a", true⟩]) "wss://a" false
      ≠ AppConfig.mk .dark [⟨"wss://a", false⟩, ⟨"wss://a", true⟩] := by
  decide

/-- Claim C5 (amended): for a config whose relay URLs are pairwise distinct,
every upsert (any URL, any target flag) preserves "at least one relay
enabled", and if exactly one relay is enabled, any disable request whose
input normalizes to that relay's URL leaves the config unchanged. -/
theorem upsertRelay_preserves_enabled_invariant (c : AppConfig)
    (hnd : (c.relays.map RelayConfigItem.url).Nodup) :
    (∀ rawUrl flag, c.relays.any (fun r => r.enabled) = true →
      (upsertRelay c rawUrl flag).relays.any (fun r => r.enabled) = true) ∧
    (∀ r rawUrl, c.relays.filter (fun x => x.enabled) = [r] →
      normalizeRelayUrl rawUrl = r.url →
      upsertRelay c rawUrl false = c) :=
  ⟨fun rawUrl flag hen => upsertRelay_any_enabled c hnd rawUrl flag hen,
   fun r rawUrl hfil hn => upsertRelay_disable_last c hnd r rawUrl hfil hn⟩

theorem upsertRelay_preserves_enabled_invariant_witness :
    (upsertRelay (AppConfig.mk .dark [⟨"wss://a", true⟩]) "wss://b" false).relays.any
      (fun r => r.enabled) = true ∧
    upsertRelay (AppConfig.mk .dark [⟨"wss://a", true⟩]) "wss://a" false
      = AppConfig.mk .dark [⟨"wss://a", true⟩] :=
  ⟨(upsertRelay_preserves_enabled_invariant (AppConfig.mk .dark [⟨"wss://a", true⟩])
      (by decide)).1 "wss://b" false (by decide),
   (upsertRelay_preserves_enabled_invariant (AppConfig.mk .dark [⟨"wss://a", true⟩])
      (by decide)).2 ⟨"wss://a", true⟩ "wss://a" (by decide) (by decide)⟩

/-- Claim C6 counterexample: with empty input the enable operation does nothing —
no entry with the normalized URL exists, yet nothing is appended. -/
theorem upsertRelay_empty_input_counterexample :
    upsertRelay (AppConfig.mk .dark [⟨"wss://a", true⟩]) "" true
      = AppConfig.mk .dark [⟨"wss://a", true⟩] ∧
    ((AppConfig.mk .dark [⟨"wss://a", true⟩]).relays.any
      (fun r => r.url == normalizeRelayUrl "")) = false := by
  decide

/-- Claim C6 (amended): for every input whose normalization is non-empty, enable
either sets the enabled flag of the entries whose url equals the normalized
input (length and url list unchanged, no duplicate created), or — when no
such entry exists — appends a new enabled entry at the end. -/
theorem upsertRelay_enable_spec (c : AppConfig) (rawUrl : String)
    (hne : normalizeRelayUrl rawUrl ≠ "") :
    (c.relays.any (fun r => r.url == normalizeRelayUrl rawUrl) = true →
      upsertRelay c rawUrl true = { c with relays := c.relays.map (fun r =>
        if r.url == normalizeRelayUrl rawUrl then { r with enabled := true } else r) } ∧
      (upsertRelay c rawUrl true).relays.length = c.relays.length ∧
      (upsertRelay c rawUrl true).relays.map RelayConfigItem.url
        = c.relays.map RelayConfigItem.url) ∧
    (c.relays.any (fun r => r.url == normalizeRelayUrl rawUrl) = false →
      upsertRelay c rawUrl true
        = { c with relays := c.relays ++ [⟨normalizeRelayUrl rawUrl, true⟩] }) := by
  constructor
  · intro hany
    have hsome : (c.relays.find? (fun r => r.url == normalizeRelayUrl rawUrl)).isSome := by
      rw [List.find?_isSome]
      exact List.any_eq_true.mp hany
    obtain ⟨ex, hf⟩ := Option.isSome_iff_exists.mp hsome
    have heq : upsertRelay c rawUrl true = { c with relays := c.relays.map (fun r =>
        if r.url == normalizeRelayUrl rawUrl then { r with enabled := true } else r) } := by
      rw [upsertRelay_eq, if_neg hne]
      simp only [hf]
      simp
    refine ⟨heq, ?_, ?_⟩
    · rw [heq]
      simp
    · rw [heq]
      exact map_url_setEnabled c.relays (normalizeRelayUrl rawUrl) true
  · intro hnone
    have hf : c.relays.find? (fun r => r.url == normalizeRelayUrl rawUrl) = none := by
      rw [List.find?_eq_none]
      intro x hx hpx
      have ht : c.relays.any (fun r => r.url == normalizeRelayUrl rawUrl) = true :=
        List.any_eq_true.mpr ⟨x, hx, hpx⟩
      rw [hnone] at ht
      exact Bool.false_ne_true ht
    rw [upsertRelay_eq, if_neg hne]
    simp only [hf]

theorem upsertRelay_enable_spec_witness :
    upsertRelay (AppConfig.mk .dark [⟨"wss://a", false⟩]) "wss://a" true
      = AppConfig.mk .dark [⟨"wss://a", true⟩] ∧
    upsertRelay (AppConfig.mk .dark [⟨"wss://a", true⟩]) "my.relay.org" true
      = AppConfig.mk .dark [⟨"wss://a", true⟩, ⟨"wss://my.relay.org", true⟩] := by
  constructor
  · have h := (upsertRelay_enable_spec (AppConfig.mk .dark [⟨"wss://a", false⟩]) "wss://a"
      (by decide)).1 (by decide)
    rw [h.1]
    decide
  · have h := (upsertRelay_enable_spec (AppConfig.mk .dark [⟨"wss://a", true⟩]) "my.relay.org"
      (by decide)).2 (by decide)
    rw [h]
    decide

/-- Claim C9 counterexample: a whitespace-only input normalizes to the empty
string, is not present in the relay list, yet a disable request leaves the
config unchanged instead of appending a new enabled entry. -/
theorem upsertRelay_whitespace_input_counterexample :
    upsertRelay (AppConfig.mk .light [⟨"wss://b", true⟩]) "  " false
      = AppConfig.mk .light [⟨"wss://b", true⟩] ∧
    ((AppConfig.mk .light [⟨"wss://b", true⟩]).relays.any
      (fun r => r.url == normalizeRelayUrl "  ")) = false := by
  decide

/-- Claim C9 (amended): for every input whose normalization is non-empty and not
present in the relay list, a disable request does not leave the config
unchanged: it appends a new entry with the normalized URL and
`enabled := true` — the requested flag is ignored on the insert path. -/
theorem upsertRelay_disable_absent_appends (c : AppConfig) (rawUrl : String)
    (hne : normalizeRelayUrl rawUrl ≠ "")
    (habs : c.relays.any (fun r => r.url == normalizeRelayUrl rawUrl) = false) :
    upsertRelay c rawUrl false
      = { c with relays := c.relays ++ [⟨normalizeRelayUrl rawUrl, true⟩] } ∧
    upsertRelay c rawUrl false ≠ c := by
  have hf : c.relays.find? (fun r => r.url == normalizeRelayUrl rawUrl) = none := by
    rw [List.find?_eq_none]
    intro x hx hpx
    have ht : c.relays.any (fun r => r.url == normalizeRelayUrl rawUrl) = true :=
      List.any_eq_true.mpr ⟨x, hx, hpx⟩
    rw [habs] at ht
    exact Bool.false_ne_true ht
  have heq : upsertRelay c rawUrl false
      = { c with relays := c.relays ++ [⟨normalizeRelayUrl rawUrl, true⟩] } := by
    rw [upsertRelay_eq, if_neg hne]
    simp only [hf]
  refine ⟨heq, ?_⟩
  intro hc
  rw [heq] at hc
  have hlen := congrArg (fun cfg : AppConfig => cfg.relays.length) hc
  simp at hlen

theorem upsertRelay_disable_absent_appends_witness :
    upsertRelay (AppConfig.mk .light [⟨"wss://b", true⟩]) "wss://new" false
      = AppConfig.mk .light [⟨"wss://b", true⟩, ⟨"wss://new", true⟩] ∧
    upsertRelay (AppConfig.mk .light [⟨"wss://b", true⟩]) "wss://new" false
      ≠ AppConfig.mk .light [⟨"wss://b", true⟩] := by
  have h := upsertRelay_disable_absent_appends (AppConfig.mk .light [⟨"wss://b", true⟩])
    "wss://new" (by decide) (by decide)
  constructor
  · rw [h.1]
    decide
  · exact h.2

/-- Claim C10 counterexample: with two duplicate disabled entries for the same
URL, enabling that URL flips both flags — the result is the same-length
list with two changed flags, neither "at most one flag changed" nor an
append. -/
theorem upsertRelay_two_flags_counterexample :
    (upsertRelay (AppConfig.mk .dark [⟨"wss://c", false⟩, ⟨"wss://c", false⟩])
        "wss://c" true).relays = [⟨"wss://c", true⟩, ⟨"wss://c", true⟩] ∧
    (upsertRelay (AppConfig.mk .dark [⟨"wss://c", false⟩, ⟨"wss://c", false⟩])
        "wss://c" true).relays.length
      = (AppConfig.mk .dark [⟨"wss://c", false⟩, ⟨"wss://c", false⟩]).relays.length ∧
    2 ≤ (((AppConfig.mk .dark [⟨"wss://c", false⟩, ⟨"wss://c", false⟩]).relays.zip
        (upsertRelay (AppConfig.mk .dark [⟨"wss://c", false⟩, ⟨"wss://c", false⟩])
          "wss://c" true).relays).filter
        (fun p => p.1.enabled != p.2.enabled)).length := by
  decide

/-- Claim C10 (amended): every upsert leaves the theme unchanged, removes no
entry, changes no url and preserves order: the result is the original
relay list unchanged, or with the enabled flag of the entries matching the
normalized URL set to the requested value, or with exactly one enabled
entry appended; in particular the url list is preserved or extended by the
normalized URL. -/
theorem upsertRelay_frame (c : AppConfig) (rawUrl : String) (flag : Bool) :
    (upsertRelay c rawUrl flag).theme = c.theme ∧
    ((upsertRelay c rawUrl flag).relays.map RelayConfigItem.url
        = c.relays.map RelayConfigItem.url ∨
     (upsertRelay c rawUrl flag).relays.map RelayConfigItem.url
        = c.relays.map RelayConfigItem.url ++ [normalizeRelayUrl rawUrl]) ∧
    ((upsertRelay c rawUrl flag).relays = c.relays ∨
     (upsertRelay c rawUrl flag).relays = c.relays.map (fun r =>
        if r.url == normalizeRelayUrl rawUrl then { r with enabled := flag } else r) ∨
     (upsertRelay c rawUrl flag).relays
        = c.relays ++ [⟨normalizeRelayUrl rawUrl, true⟩]) := by
  rw [upsertRelay_eq]
  by_cases hu : normalizeRelayUrl rawUrl = ""
  · rw [if_pos hu]
    exact ⟨rfl, Or.inl rfl, Or.inl rfl⟩
  · rw [if_neg hu]
    cases hf : c.relays.find? (fun r => r.url == normalizeRelayUrl rawUrl) with
    | some ex =>
      by_cases hguard : (ex.enabled && !flag
          && decide ((c.relays.filter (fun r => r.enabled)).length ≤ 1)) = true
      · simp [hguard]
      · simp [hguard]
        left
        intro a _
        by_cases h : a.url = normalizeRelayUrl rawUrl <;> simp [h]
    | none => simp

/-- Claim C8: the pool's active URL list is the enabled relays' URLs when some
relay is enabled, otherwise the singleton first configured relay's URL; for
a non-empty relay list it is never empty. -/
theorem relayUrls_spec (c : AppConfig) :
    (c.relays.filter (fun r => r.enabled) ≠ [] →
      relayUrls c = (c.relays.filter (fun r => r.enabled)).map (fun r => r.url)) ∧
    (∀ r rest, c.relays.filter (fun x => x.enabled) = [] → c.relays = r :: rest →
      relayUrls c = [r.url]) ∧
    (c.relays ≠ [] → relayUrls c ≠ []) := by
  refine ⟨?_, ?_, ?_⟩
  · intro h
    have hl : 0 < (c.relays.filter (fun r => r.enabled)).length := List.length_pos.mpr h
    simp [relayUrls, hl]
  · intro r rest hfil hrel
    rw [hrel] at hfil
    simp [relayUrls, hrel, hfil]
  · intro h
    by_cases hfil : c.relays.filter (fun r => r.enabled) = []
    · cases hrel : c.relays with
      | nil => exact absurd hrel h
      | cons r rest =>
        rw [hrel] at hfil
        simp [relayUrls, hrel, hfil]
    · have hl : 0 < (c.relays.filter (fun r => r.enabled)).length := List.length_pos.mpr hfil
      simp [relayUrls, hl, hfil]

theorem relayUrls_spec_witness :
    relayUrls (AppConfig.mk .dark [⟨"wss://a", true⟩, ⟨"wss://b", false⟩]) = ["wss://a"] ∧
    relayUrls (AppConfig.mk .dark [⟨"wss://c", false⟩]) = ["wss://c"] := by
  constructor
  · rw [(relayUrls_spec (AppConfig.mk .dark [⟨"wss://a", true⟩, ⟨"wss://b", false⟩])).1
      (by decide)]
    decide
  · exact (relayUrls_spec (AppConfig.mk .dark [⟨"wss://c", false⟩])).2.1
      ⟨"wss://c", false⟩ [] (by decide) rfl

/-! ### Properties of the deserializer -/

theorem parseAppConfig_relays_ne_nil (validUrl : String → Bool) (j : Json) (cfg : AppConfig)
    (h : parseAppConfig validUrl j = some cfg) : cfg.relays ≠ [] := by
  cases j with
  | obj fields =>
    simp only [parseAppConfig] at h
    split at h
    · split at h
      · split at h
        · rename_i hlen
          rw [Option.some.injEq] at h
          subst h
          intro hc
          simp only at hc
          rw [hc] at hlen
          simp at hlen
        · exact absurd h (by simp)
      · exact absurd h (by simp)
    · exact absurd h (by simp)
  | null => exact absurd h (by simp [parseAppConfig])
  | bool b => exact absurd h (by simp [parseAppConfig])
  | num n => exact absurd h (by simp [parseAppConfig])
  | str s => exact absurd h (by simp [parseAppConfig])
  | arr items => exact absurd h (by simp [parseAppConfig])

theorem repairRelays_of_disabled (l : List RelayConfigItem) :
    ∀ i, i ≠ 0 → (∀ x ∈ l, x.enabled = false) → repairRelays i l = l := by
  induction l with
  | nil => intro i _ _; rfl
  | cons a t ih =>
    intro i hi h
    have ha : a.enabled = false := h a (List.mem_cons_self a t)
    have hset : ({ a with enabled := (i == 0) } : RelayConfigItem) = a := by
      cases a with
      | mk u e =>
        simp only at ha
        simp [ha, hi]
    rw [repairRelays, hset, ih (i + 1) (by omega) (fun x hx => h x (List.mem_cons_of_mem a hx))]

theorem repairRelays_any_enabled (l : List RelayConfigItem) (h : l ≠ []) :
    (repairRelays 0 l).any (fun r => r.enabled) = true := by
  cases l with
  | nil => exact absurd rfl h
  | cons a t => simp [repairRelays]

theorem repairRelays_ne_nil (i : Nat) (l : List RelayConfigItem) (h : l ≠ []) :
    repairRelays i l ≠ [] := by
  cases l with
  | nil => exact absurd rfl h
  | cons a t => simp [repairRelays]

/-- Claim C1: when parsing throws, or the payload validates against neither the
current nor the legacy schema, the deserializer returns exactly the
supplied default configuration (it is a total function: no error escapes). -/
theorem deserializeAppConfig_fallback (validUrl : String → Bool) (defaultConfig : AppConfig) :
    deserializeAppConfig validUrl defaultConfig none = defaultConfig ∧
    ∀ j, parseAppConfig validUrl j = none → parseLegacyConfig validUrl j = none →
      deserializeAppConfig validUrl defaultConfig (some j) = defaultConfig := by
  refine ⟨rfl, fun j h1 h2 => ?_⟩
  simp [deserializeAppConfig, h1, h2]

theorem deserializeAppConfig_fallback_witness :
    deserializeAppConfig (fun _ => true) (AppConfig.mk .dark [⟨"wss://d", true⟩]) (some .null)
      = AppConfig.mk .dark [⟨"wss://d", true⟩] :=
  (deserializeAppConfig_fallback (fun _ => true) (AppConfig.mk .dark [⟨"wss://d", true⟩])).2
    .null rfl rfl

/-- Claim C2: a payload failing current-schema validation but validating against
the legacy schema `{theme, relayUrl}` deserializes to
`{theme, relays: [{url: relayUrl, enabled: true}]}`. -/
theorem deserializeAppConfig_legacy (validUrl : String → Bool) (defaultConfig : AppConfig)
    (j : Json) (theme : Theme) (relayUrl : String)
    (h1 : parseAppConfig validUrl j = none)
    (h2 : parseLegacyConfig validUrl j = some (theme, relayUrl)) :
    deserializeAppConfig validUrl defaultConfig (some j)
      = AppConfig.mk theme [⟨relayUrl, true⟩] := by
  simp [deserializeAppConfig, h1, h2]

theorem deserializeAppConfig_legacy_witness :
    deserializeAppConfig (fun _ => true) (AppConfig.mk .dark [⟨"wss://d", true⟩])
      (some (.obj [("theme", .str "dark"), ("relayUrl", .str "wss://x")]))
      = AppConfig.mk .dark [⟨"wss://x", true⟩] :=
  deserializeAppConfig_legacy (fun _ => true) (AppConfig.mk .dark [⟨"wss://d", true⟩])
    (.obj [("theme", .str "dark"), ("relayUrl", .str "wss://x")]) .dark "wss://x" rfl rfl

/-- Claim C3: a payload valid under the current schema in which no relay is
enabled deserializes to the same theme and the same relay list with the
entry at index 0 forced to `enabled := true` and all other entries
unchanged. -/
theorem deserializeAppConfig_repair (validUrl : String → Bool) (defaultConfig : AppConfig)
    (j : Json) (theme : Theme) (r : RelayConfigItem) (rest : List RelayConfigItem)
    (hp : parseAppConfig validUrl j = some (AppConfig.mk theme (r :: rest)))
    (hno : (r :: rest).any (fun x => x.enabled) = false) :
    deserializeAppConfig validUrl defaultConfig (some j)
      = AppConfig.mk theme ({ r with enabled := true } :: rest) := by
  have hall : ∀ x ∈ rest, x.enabled = false := by
    intro x hx
    cases hxe : x.enabled with
    | false => rfl
    | true =>
      have ht : (r :: rest).any (fun x => x.enabled) = true :=
        List.any_eq_true.mpr ⟨x, List.mem_cons_of_mem r hx, hxe⟩
      rw [hno] at ht
      exact absurd ht Bool.false_ne_true
  simp only [deserializeAppConfig, hp]
  have hcond : ((AppConfig.mk theme (r :: rest)).relays.any (fun x => x.enabled)) = false := hno
  simp only [hcond, Bool.false_eq_true, if_false]
  simp only [repairRelays]
  rw [repairRelays_of_disabled rest (0 + 1) (by omega) hall]
  simp

theorem deserializeAppConfig_repair_witness :
    deserializeAppConfig (fun _ => true) (AppConfig.mk .dark [⟨"wss://d", true⟩])
      (some (.obj [("theme", .str "light"),
        ("relays", .arr [.obj [("url", .str "wss://a"), ("enabled", .bool false)],
                         .obj [("url", .str "wss://b"), ("enabled", .bool false)]])]))
      = AppConfig.mk .light [⟨"wss://a", true⟩, ⟨"wss://b", false⟩] :=
  deserializeAppConfig_repair (fun _ => true) (AppConfig.mk .dark [⟨"wss://d", true⟩])
    (.obj [("theme", .str "light"),
      ("relays", .arr [.obj [("url", .str "wss://a"), ("enabled", .bool false)],
                       .obj [("url", .str "wss://b"), ("enabled", .bool false)]])])
    .light ⟨"wss://a", false⟩ [⟨"wss://b", false⟩] rfl rfl

/-- Claim C4: whatever the payload (including a parse failure), the deserialized
config has a non-empty relay list with at least one enabled relay, provided
the supplied default configuration satisfies that invariant. -/
theorem deserializeAppConfig_invariant (validUrl : String → Bool) (defaultConfig : AppConfig)
    (input : Option Json)
    (hd1 : defaultConfig.relays ≠ [])
    (hd2 : defaultConfig.relays.any (fun r => r.enabled) = true) :
    (deserializeAppConfig validUrl defaultConfig input).relays ≠ [] ∧
    (deserializeAppConfig validUrl defaultConfig input).relays.any
      (fun r => r.enabled) = true := by
  cases input with
  | none => exact ⟨hd1, hd2⟩
  | some j =>
    simp only [deserializeAppConfig]
    cases hp : parseAppConfig validUrl j with
    | some data =>
      have hne := parseAppConfig_relays_ne_nil validUrl j data hp
      by_cases hen : data.relays.any (fun r => r.enabled) = true
      · simp [hen, hne]
      · simp only [hen, Bool.false_eq_true, if_false]
        exact ⟨repairRelays_ne_nil 0 data.relays hne, repairRelays_any_enabled data.relays hne⟩
    | none =>
      cases hl : parseLegacyConfig validUrl j with
      | some p =>
        cases p with
        | mk t u => simp
      | none => exact ⟨hd1, hd2⟩

theorem deserializeAppConfig_invariant_witness :
    (deserializeAppConfig (fun _ => true) (AppConfig.mk .dark [⟨"wss://d", true⟩])
      none).relays ≠ [] ∧
    (deserializeAppConfig (fun _ => true) (AppConfig.mk .dark [⟨"wss://d", true⟩])
      none).relays.any (fun r => r.enabled) = true :=
  deserializeAppConfig_invariant (fun _ => true) (AppConfig.mk .dark [⟨"wss://d", true⟩])
    none (by decide) (by decide)
